import Mathlib

set_option maxRecDepth 100000

/-!
# A verification development for the `skills-man` skill manager

This file gives a shallow embedding, in Lean 4, of the core of the
`skills-man` program (a CLI that installs "skill" directories from GitHub
and tracks them in a `skills.toml` manifest), together with theorems about
the embedded definitions.

The embedding follows the Rust sources:

* `src/models.rs` — URL parsing (`GitHubUrlSpec.parse`, `candidates`),
  the manifest record type `SkillEntry`;
* `src/utils.rs` — `calculate_checksum` (SHA-256 over a sorted directory
  walk) and `ensure_skill_manifest`;
* `src/cli/install.rs` — the install orchestrator: candidate resolution
  loop, single-skill up-to-date check, batch install loop;
* `src/cli/github.rs` — `detect_skill_type`;
* `src/cli/sync.rs` — the sync orchestrator (per-skill decision and the
  orphan-directory sweep);
* `src/cli.rs` — the legacy single-file variant (its orphan-directory
  sweep is embedded for comparison).

Effectful operations (network probes, filesystem reads and renames,
interactive prompts) are embedded by passing the outcome of each effect
as an explicit argument, so every embedded function is a pure, executable
Lean function of the same decision structure as the source.
-/

/-- The error enumeration of `src/errors.rs`.  The copy of `errors.rs`
in the tree matches the legacy `src/cli.rs` variant; the `src/cli/*`
modules additionally construct `Forbidden` with a `url` payload,
`NoSkillsFound`, `InvalidResponse` and `BatchInstallationFailed`
(spec §7 taxonomy: `PartialBatchFailure` carries the success count and
the failed-name list).  Those extra variants are modelled from the spec
and the construction sites in `src/cli/install.rs` / `src/cli/github.rs`. -/
inductive SkillsError where
  | InvalidUrl (url : String)
  | NetworkError (reason : String)
  | NotFound (url : String)
  | Forbidden (url : String)
  | RateLimited
  | HttpError (status : Nat) (message : String)
  | InvalidArchive (reason : String)
  | PathNotFound (path : String)
  | MissingSkillManifest
  | IoError (message : String)
  | ConfigParseError (reason : String)
  | NoSkillsFound (path : String)
  | InvalidResponse (message : String)
  | BatchInstallationFailed (successful : Nat) (failed : List String)
deriving DecidableEq, Repr

/-- Decidable equality for `Except` values (used to evaluate embedded
functions on concrete inputs). -/
instance {ε α : Type} [DecidableEq ε] [DecidableEq α] : DecidableEq (Except ε α) := fun
  | .error a, .error b =>
    match decEq a b with
    | isTrue h => isTrue (h ▸ rfl)
    | isFalse h => isFalse fun hh => h (by cases hh; rfl)
  | .error _, .ok _ => isFalse fun hh => Except.noConfusion hh
  | .ok _, .error _ => isFalse fun hh => Except.noConfusion hh
  | .ok a, .ok b =>
    match decEq a b with
    | isTrue h => isTrue (h ▸ rfl)
    | isFalse h => isFalse fun hh => h (by cases hh; rfl)

/-- `true` exactly on the `NotFound` variant; mirrors the pattern
`Err(SkillsError::NotFound { .. })` in `src/cli/install.rs:51`. -/
def SkillsError.isNotFound : SkillsError → Bool
  | .NotFound _ => true
  | _ => false

/-- A resolved GitHub location, `src/models.rs:97-102`: repository slug,
ref and path within the repository. -/
structure GitHubUrl where
  slug : String
  ref : String
  path : String
deriving DecidableEq, Repr

/-- `src/models.rs:48-52`: a parsed (still ambiguous) GitHub tree URL:
the repository slug and the tail segments after `/tree/`. -/
structure GitHubUrlSpec where
  slug : String
  tail : List String
deriving DecidableEq, Repr

/-- Rust's `[String]::join("/")`, used by `GitHubUrlSpec::candidates`
(`src/models.rs:90-91`). -/
def joinSlash : List String → String
  | [] => ""
  | [x] => x
  | x :: y :: t => x ++ "/" ++ joinSlash (y :: t)

/-- ASCII lowercasing of a string, characterwise. -/
def lowerStr (s : String) : String :=
  String.mk (s.data.map Char.toLower)

/-- Rust's `str::eq_ignore_ascii_case`, used for the `SKILL.md` probes
(`src/cli/install.rs:67`, `src/cli/github.rs:240`). -/
def eqIgnoreAsciiCase (a b : String) : Bool :=
  lowerStr a == lowerStr b

/-- Rust's `str::trim`: whitespace stripped from both ends. -/
def strTrim (s : String) : String :=
  String.mk (((s.data.dropWhile Char.isWhitespace).reverse.dropWhile Char.isWhitespace).reverse)

/-- Rust's `str::starts_with('.')`: the first character is a dot. -/
def startsWithDot (s : String) : Bool :=
  match s.data with
  | [] => false
  | c :: _ => c == '.'

/-- Rust's `str::split(sep)` over a character list: the groups between
occurrences of `sep` (an empty input yields one empty group, matching
Rust). -/
def splitChar (sep : Char) : List Char → List (List Char)
  | [] => [[]]
  | c :: t =>
    if c == sep then [] :: splitChar sep t
    else
      match splitChar sep t with
      | [] => [[c]]
      | g :: gs => (c :: g) :: gs

/-- The tail handling of `GitHubUrlSpec::parse` (`src/models.rs:66-74`):
the second regex capture is split on `/`, empty segments are dropped, and
fewer than two remaining segments is an `InvalidUrl` parse failure.  The
regex match itself (scheme, host, slug) is outside this embedding; `s` is
the captured tail. -/
def parse_tail (s : String) : Except SkillsError (List String) :=
  let tail := ((splitChar '/' s.data).map String.mk).filter (fun part => part ≠ "")
  if tail.length < 2 then .error (.InvalidUrl s) else .ok tail

/-- `GitHubUrlSpec::candidates` (`src/models.rs:86-94`): one candidate per
split point in `1..tail.len()`, the ref being the first `split` segments
joined with `/` and the path the rest. -/
def GitHubUrlSpec.candidates (spec : GitHubUrlSpec) : List GitHubUrl :=
  (List.range' 1 (spec.tail.length - 1)).map fun split =>
    { slug := spec.slug
      ref := joinSlash (spec.tail.take split)
      path := joinSlash (spec.tail.drop split) }

/-- `GitHubUrlSpec::directory_name` (`src/models.rs:82-84`): the last tail
segment (the derived skill name). -/
def GitHubUrlSpec.directory_name (spec : GitHubUrlSpec) : Option String :=
  spec.tail.getLast?

/-- A manifest record, keyed by skill name (`src/models.rs:40-46`; the
`src/cli/install.rs` variant additionally persists the `commit` field,
spec §3 `resolvedCommit`). -/
structure SkillEntry where
  source_url : String
  slug : String
  commit : String
  sha : String
  path : String
  checksum : String
deriving DecidableEq, Repr

/-- A git reference as classified by the `src/cli/*` variant
(`install.rs:160-162` matches on `GitRef::CommitSHA` / `GitRef::Other`).
Its defining module is not in the tree; modelled from the spec (§3: `ref`
is a branch/tag/arbitrary ref, not necessarily a commit) and the match
sites. -/
inductive GitRef where
  | CommitSHA (sha : String)
  | Other (r : String)
deriving DecidableEq, Repr

/-- One entry of a GitHub Contents API directory listing as consumed by
`src/cli/install.rs` (`e.name`, `e.r#type`, `e.sha`).  The declaring
module (`ContentsEntry`) is not in the tree; modelled from the spec
(§6: listing entries are `{name, type∈{file,dir}, sha}`). -/
structure ContentsEntry where
  name : String
  type : String
  sha : String
deriving DecidableEq, Repr

/-- One entry of a directory listing as deserialized by
`src/cli/github.rs:189-194` (`ContentItem`: name and `"file"`/`"dir"`
type, no sha). -/
structure ContentItem where
  name : String
  item_type : String
deriving DecidableEq, Repr

/-! ## SHA-256

`calculate_checksum` (`src/utils.rs:7-27`) folds a SHA-256 hasher (the
`sha2` crate, an external collaborator) over relative-path bytes and file
contents.  Modelled from the spec: the spec (§4.1) treats the digest as a
cryptographic hash rendered as `"sha256:<hex>"`; the function below is
the standard SHA-256 algorithm over a byte list (bytes as `Nat < 256`). -/

/-- Addition modulo `2^32`. -/
def add32 (a b : Nat) : Nat := (a + b) % 4294967296

/-- Right rotation of a 32-bit word (arguments already reduced mod `2^32`). -/
def rotr32 (n x : Nat) : Nat := x / 2 ^ n + x % 2 ^ n * 2 ^ (32 - n)

/-- Bitwise complement of a 32-bit word. -/
def not32 (x : Nat) : Nat := 4294967295 - x

/-- The 64 SHA-256 round constants. -/
def sha256k : List Nat :=
  [1116352408, 1899447441, 3049323471, 3921009573, 961987163,
   1508970993, 2453635748, 2870763221, 3624381080, 310598401,
   607225278, 1426881987, 1925078388, 2162078206, 2614888103,
   3248222580, 3835390401, 4022224774, 264347078, 604807628,
   770255983, 1249150122, 1555081692, 1996064986, 2554220882,
   2821834349, 2952996808, 3210313671, 3336571891, 3584528711,
   113926993, 338241895, 666307205, 773529912, 1294757372,
   1396182291, 1695183700, 1986661051, 2177026350, 2456956037,
   2730485921, 2820302411, 3259730800, 3345764771, 3516065817,
   3600352804, 4094571909, 275423344, 430227734, 506948616,
   659060556, 883997877, 958139571, 1322822218, 1537002063,
   1747873779, 1955562222, 2024104815, 2227730452, 2361852424,
   2428436474, 2756734187, 3204031479, 3329325298]

/-- The SHA-256 initial hash value. -/
def sha256h0 : List Nat :=
  [1779033703, 3144134277, 1013904242, 2773480762,
   1359893119, 2600822924, 528734635, 1541459225]

/-- SHA-256 padding: append `0x80`, zeros to 56 mod 64, then the message
bit length as 8 big-endian bytes. -/
def sha256pad (msg : List Nat) : List Nat :=
  let L := msg.length
  let zeros := (119 - L % 64) % 64
  msg ++ [0x80] ++ List.replicate zeros 0 ++
    ([56, 48, 40, 32, 24, 16, 8, 0].map fun s => L * 8 / 2 ^ s % 256)

/-- Split a byte list into 64-byte chunks (the fuel argument, the list
length, makes the recursion structural so it reduces in the kernel). -/
def chunks64Aux : Nat → List Nat → List (List Nat)
  | 0, _ => []
  | _, [] => []
  | fuel + 1, b :: t => ((b :: t).take 64) :: chunks64Aux fuel ((b :: t).drop 64)

/-- Split a byte list into 64-byte chunks. -/
def chunks64 (l : List Nat) : List (List Nat) := chunks64Aux l.length l

/-- The 64-word message schedule of one chunk. -/
def sha256schedule (chunk : List Nat) : List Nat :=
  let w0 := (List.range 16).map fun i =>
    chunk.getD (4 * i) 0 * 16777216 + chunk.getD (4 * i + 1) 0 * 65536 +
    chunk.getD (4 * i + 2) 0 * 256 + chunk.getD (4 * i + 3) 0
  (List.range 48).foldl (fun w t =>
    let x15 := w.getD (t + 1) 0
    let x2 := w.getD (t + 14) 0
    let s0 := rotr32 7 x15 ^^^ rotr32 18 x15 ^^^ x15 / 8
    let s1 := rotr32 17 x2 ^^^ rotr32 19 x2 ^^^ x2 / 1024
    w ++ [add32 (add32 (w.getD t 0) s0) (add32 (w.getD (t + 9) 0) s1)]) w0

/-- One SHA-256 compression round. -/
def sha256round (k w : Nat) : List Nat → List Nat
  | [a, b, c, d, e, f, g, h] =>
    let s1 := rotr32 6 e ^^^ rotr32 11 e ^^^ rotr32 25 e
    let ch := e &&& f ^^^ not32 e &&& g
    let t1 := add32 (add32 (add32 h s1) (add32 ch k)) w
    let s0 := rotr32 2 a ^^^ rotr32 13 a ^^^ rotr32 22 a
    let maj := a &&& b ^^^ a &&& c ^^^ b &&& c
    let t2 := add32 s0 maj
    [add32 t1 t2, a, b, c, add32 d t1, e, f, g]
  | st => st

/-- Process one 64-byte chunk into the running hash. -/
def sha256chunk (h : List Nat) (chunk : List Nat) : List Nat :=
  let w := sha256schedule chunk
  let st := (List.range 64).foldl
    (fun st i => sha256round (sha256k.getD i 0) (w.getD i 0) st) h
  List.zipWith add32 h st

/-- SHA-256 of a byte list, as a list of 32 digest bytes. -/
def sha256 (msg : List Nat) : List Nat :=
  let h := (chunks64 (sha256pad msg)).foldl sha256chunk sha256h0
  h.flatMap fun word => [word / 16777216 % 256, word / 65536 % 256, word / 256 % 256, word % 256]

/-- One lowercase hex digit. -/
def hexChar (n : Nat) : Char :=
  if n < 10 then Char.ofNat (48 + n) else Char.ofNat (87 + n)

/-- Two lowercase hex digits of a byte. -/
def byteHex (b : Nat) : String :=
  String.mk [hexChar (b / 16), hexChar (b % 16)]

/-- The lowercase hex rendering of the SHA-256 digest of `msg`, as
produced by `format!("{:x}", hasher.finalize())` in `src/utils.rs:26`. -/
def sha256hex (msg : List Nat) : String :=
  String.join ((sha256 msg).map byteHex)

/-! ## The checksum engine (`src/utils.rs:7-27`) -/

/-- UTF-8 bytes of one character. -/
def utf8CharBytes (c : Char) : List Nat :=
  let n := c.toNat
  if n < 128 then [n]
  else if n < 2048 then [192 + n / 64, 128 + n % 64]
  else if n < 65536 then [224 + n / 4096, 128 + n / 64 % 64, 128 + n % 64]
  else [240 + n / 262144, 128 + n / 4096 % 64, 128 + n / 64 % 64, 128 + n % 64]

/-- UTF-8 bytes of a string, as fed to the hasher by
`relative.to_string_lossy().as_bytes()` (`src/utils.rs:20`). -/
def utf8Bytes (s : String) : List Nat :=
  s.data.flatMap utf8CharBytes

/-- Byte-lexicographic comparison of character lists (the order in which
Rust's `Vec<PathBuf>::sort` arranges the walked paths; on paths sharing
the walk root, comparing full paths and comparing root-relative paths
agree). -/
def charListLe : List Char → List Char → Bool
  | [], _ => true
  | _ :: _, [] => false
  | x :: xs, y :: ys => if x < y then true else if y < x then false else charListLe xs ys

/-- The path order used for the sort in `src/utils.rs:16`. -/
def pathLe (a b : String) : Prop := charListLe a.data b.data = true

instance : DecidableRel pathLe := fun a b =>
  inferInstanceAs (Decidable (charListLe a.data b.data = true))

/-- One entry produced by the `WalkDir` traversal after the
`file_type().is_file()` information is attached: a path (relative to the
walk root, see `strip_prefix` in `src/utils.rs:19`) and whether it is a
regular file. -/
structure WalkEnt where
  path : String
  isFile : Bool
deriving DecidableEq, Repr

/-- The path collection of `src/utils.rs:9-14`: walk results that are
`Ok` survive (`filter_map(|e| e.ok())`), non-files are dropped, and the
paths are collected. -/
def walk_file_paths (walk : List (Except String WalkEnt)) : List String :=
  ((walk.filterMap Except.toOption).filter (fun e => e.isFile)).map (fun e => e.path)

/-- The hasher fold of `src/utils.rs:18-24`: for each path in order, the
relative-path bytes are fed to the hasher, then the file is read
(`fs::read`, aborting on the first unreadable file) and its bytes fed.
The returned value is the full byte stream given to SHA-256. -/
def hash_stream (read : String → Except String (List Nat)) :
    List String → Except String (List Nat)
  | [] => .ok []
  | p :: ps =>
    match read p with
    | .error e => .error e
    | .ok c =>
      match hash_stream read ps with
      | .error e => .error e
      | .ok rest => .ok (utf8Bytes p ++ c ++ rest)

/-- `calculate_checksum` (`src/utils.rs:7-27`): walk, keep readable-entry
files, sort the paths, fold path bytes and contents into SHA-256, and tag
the hex digest with `"sha256:"`.  `read p` is the outcome of
`fs::read` on path `p`. -/
def calculate_checksum (walk : List (Except String WalkEnt))
    (read : String → Except String (List Nat)) : Except String String :=
  match hash_stream read (List.insertionSort pathLe (walk_file_paths walk)) with
  | .error e => .error e
  | .ok stream => .ok ("sha256:" ++ sha256hex stream)

/-! A concrete, error-free directory is a list of `(relative path, content
bytes)` pairs; its walk yields every file and every read succeeds. -/

/-- The walk of a fully readable directory. -/
def dirWalk (files : List (String × List Nat)) : List (Except String WalkEnt) :=
  files.map fun f => .ok ⟨f.1, true⟩

/-- The read function of a fully readable directory. -/
def dirRead (files : List (String × List Nat)) : String → Except String (List Nat) :=
  fun p =>
    match files.find? (fun f => f.1 == p) with
    | some f => .ok f.2
    | none => .error "missing"

/-- `calculate_checksum` applied to a fully readable directory. -/
def checksum_of_dir (files : List (String × List Nat)) : Except String String :=
  calculate_checksum (dirWalk files) (dirRead files)

/-- The byte stream hashed for a fully readable directory. -/
def dir_stream (files : List (String × List Nat)) : Except String (List Nat) :=
  hash_stream (dirRead files) (List.insertionSort pathLe (walk_file_paths (dirWalk files)))

/-! ## The reference-resolution loop (`src/cli/install.rs:39-56`) -/

/-- The response of the contents probe (`fetch_contents_sha`) consumed by
`install_skill` (`contents.r#type`, `contents.entries`, `contents.sha`).
The declaring module is not in the tree; modelled from the spec (§6
listing contract) and the use sites in `src/cli/install.rs:58-82`. -/
structure ContentsResponse where
  type : String
  entries : Option (List ContentsEntry)
  sha : String
deriving DecidableEq, Repr

/-- The candidate loop of `install_skill` (`src/cli/install.rs:44-56`):
probe candidates in order; a `NotFound` error advances to the next
candidate, any other error is returned as is, the first success wins, and
an exhausted list is a `PathNotFound` carrying the full original URL. -/
def install_resolve_loop (url : String)
    (probe : GitHubUrl → Except SkillsError ContentsResponse) :
    List GitHubUrl → Except SkillsError (GitHubUrl × ContentsResponse)
  | [] => .error (.PathNotFound url)
  | c :: rest =>
    match probe c with
    | .ok contents => .ok (c, contents)
    | .error e => if e.isNotFound then install_resolve_loop url probe rest else .error e

/-! ## Topology dispatch and batch-member collection
(`src/cli/install.rs:58-83` and `215-219`) -/

/-- The single-skill test of `install_skill` (`src/cli/install.rs:65-68`):
some listing entry is a file named `SKILL.md` up to ASCII case. -/
def is_single_skill (entries : List ContentsEntry) : Bool :=
  entries.any fun e => eqIgnoreAsciiCase e.name "SKILL.md" && e.type == "file"

/-- The batch-member collection of `install_batch_skills`
(`src/cli/install.rs:215-218`): every `dir`-typed listing entry is a
member; an empty member list is a `NoSkillsFound` error for the resolved
path. -/
def install_collect_batch (path : String) (entries : List ContentsEntry) :
    Except SkillsError (List String) :=
  let members := (entries.filter fun e => e.type == "dir").map fun e => e.name
  if members.isEmpty then .error (.NoSkillsFound path) else .ok members

/-- `SkillDetectionResult` (`src/cli/github.rs:184-187`). -/
inductive SkillDetectionResult where
  | Single
  | Batch (dirs : List String)
deriving DecidableEq, Repr

/-- The `SKILL.md` probe of `detect_skill_type`
(`src/cli/github.rs:238-240` and `262-264`). -/
def has_skill_manifest (contents : List ContentItem) : Bool :=
  contents.any fun item => item.item_type == "file" && eqIgnoreAsciiCase item.name "SKILL.md"

/-- The subdirectory probe loop of `detect_skill_type`
(`src/cli/github.rs:252-269`): list each subdirectory (a listing failure
propagates) and keep those whose listing contains a `SKILL.md` file. -/
def detect_batch_dirs (child : String → Except SkillsError (List ContentItem)) :
    List ContentItem → Except SkillsError (List String)
  | [] => .ok []
  | subdir :: rest =>
    match child subdir.name with
    | .error e => .error e
    | .ok childContents =>
      match detect_batch_dirs child rest with
      | .error e => .error e
      | .ok dirs =>
        .ok (if has_skill_manifest childContents then subdir.name :: dirs else dirs)

/-- `detect_skill_type` (`src/cli/github.rs:231-276`): a top-level
`SKILL.md` file means a single skill; otherwise each immediate
subdirectory is listed (`child` is the outcome of
`list_directory_contents` on it) and those containing a `SKILL.md` are
the batch members; no qualifying subdirectory is a `NoSkillsFound`
error. -/
def detect_skill_type (path : String) (contents : List ContentItem)
    (child : String → Except SkillsError (List ContentItem)) :
    Except SkillsError SkillDetectionResult :=
  if has_skill_manifest contents then .ok .Single
  else
    match detect_batch_dirs child (contents.filter fun item => item.item_type == "dir") with
    | .error e => .error e
    | .ok skill_dirs =>
      if skill_dirs.isEmpty then .error (.NoSkillsFound path) else .ok (.Batch skill_dirs)

/-! ## The single-skill install decision (`src/cli/install.rs:86-178`) -/

/-- The three ways `install_single_skill` can leave its up-front checks:
cancelled at the different-source prompt (`install.rs:112-115`), skipped
as already up to date (`install.rs:119-136`), or proceeding to download
(`install.rs:139` onwards). -/
inductive SingleInstallAction where
  | cancelled
  | skipUpToDate
  | download
deriving DecidableEq, Repr

/-- The decision structure of `install_single_skill`
(`src/cli/install.rs:99-139`).  `existing` is the manifest record under
the derived name, `dirExists` the `skill_dir.exists()` test, `sha` the
freshly fetched contents sha, `checksumRes` the outcome of
`calculate_checksum(&skill_dir)`, and `confirm` the outcome of
`confirm_action` at the different-source prompt. -/
def install_single_decision (existing : Option SkillEntry) (source_url : String)
    (dirExists : Bool) (sha : String) (checksumRes : Option String)
    (confirm : Bool) : SingleInstallAction :=
  match existing with
  | none => .download
  | some e =>
    if e.source_url ≠ source_url ∧ ¬ confirm then .cancelled
    else if dirExists ∧ sha = e.sha ∧ checksumRes = some e.checksum then .skipUpToDate
    else .download

/-- The manifest write performed on the skip path
(`src/cli/install.rs:125-130`): only `source_url` is refreshed, and only
when it changed. -/
def install_single_skip_entry (e : SkillEntry) (source_url : String) : SkillEntry :=
  if e.source_url ≠ source_url then { e with source_url := source_url } else e

/-! ## The batch install loop (`src/cli/install.rs:266-353`) -/

/-- The per-member effect outcomes of one iteration of the batch loop
(`src/cli/install.rs:269-332`): whether the sub-directory was present in
the download (`temp_skill_dir.exists()`), whether removing an existing
destination failed, whether the rename failed, the outcome of
`calculate_checksum` on the moved directory, the outcome of
`resolve_commit_sha` for this member (consulted only when the resolved
ref is not already a commit SHA), and the outcome of `config.save`. -/
structure MemberFate where
  name : String
  tempExists : Bool
  removeFails : Bool
  renameFails : Bool
  checksumRes : Option String
  resolveRes : Except SkillsError String
  saveRes : Except SkillsError Unit
deriving DecidableEq, Repr

/-- The commit identifier recorded for one batch member
(`src/cli/install.rs:307-317`): a ref that is already a commit SHA is
used directly; otherwise `resolve_commit_sha` is consulted (its outcome
is `m.resolveRes`). -/
def member_commit_res (r : GitRef) (m : MemberFate) : Except SkillsError String :=
  match r with
  | .CommitSHA s => .ok s
  | .Other _ => m.resolveRes

/-- The loop of `src/cli/install.rs:269-332`, threading the success
count, the failed-name list and the list of members already committed to
the manifest.  Local failures (missing subtree, remove, rename, checksum)
record the member as failed and continue; an error from
`resolve_commit_sha` or `config.save` is propagated by `?`, ending the
whole loop. -/
def install_batch_loop (r : GitRef) :
    List MemberFate → Nat → List String → List String →
    List String × Except SkillsError (Nat × List String)
  | [], successful, failed, committed => (committed, .ok (successful, failed))
  | m :: rest, successful, failed, committed =>
    if ¬ m.tempExists then install_batch_loop r rest successful (failed ++ [m.name]) committed
    else if m.removeFails then install_batch_loop r rest successful (failed ++ [m.name]) committed
    else if m.renameFails then install_batch_loop r rest successful (failed ++ [m.name]) committed
    else
      match m.checksumRes with
      | none => install_batch_loop r rest successful (failed ++ [m.name]) committed
      | some _ =>
        match member_commit_res r m with
        | .error e => (committed, .error e)
        | .ok _ =>
          match m.saveRes with
          | .error e => (committed, .error e)
          | .ok _ => install_batch_loop r rest (successful + 1) failed (committed ++ [m.name])

/-- The overall outcome of `install_batch_skills` after the loop
(`src/cli/install.rs:334-353`): a propagated error is returned as is;
otherwise a non-empty failed list becomes a single
`BatchInstallationFailed` error carrying the success count and the failed
names. -/
def install_batch_result (r : GitRef) (members : List MemberFate) :
    List String × Except SkillsError Unit :=
  match install_batch_loop r members 0 [] [] with
  | (committed, .error e) => (committed, .error e)
  | (committed, .ok (successful, failed)) =>
    if failed.isEmpty then (committed, .ok ())
    else (committed, .error (.BatchInstallationFailed successful failed))

/-- `true` exactly when a member fails one of the loop's local,
aggregated checks (missing subtree, remove failure, rename failure,
checksum failure). -/
def MemberFate.localFailure (m : MemberFate) : Bool :=
  !m.tempExists || m.removeFails || m.renameFails || m.checksumRes.isNone

/-! ## The sync orchestrator (`src/cli/sync.rs`) -/

/-- One directory entry of the skills root as inspected by the sweep
loops (`src/cli/sync.rs:18-32`, `src/cli.rs:282-300`): whether
`path.is_dir()` holds and the decoded file name (`None` when
`file_name().and_then(to_str)` fails). -/
structure DirEnt where
  name : Option String
  isDir : Bool
deriving DecidableEq, Repr

/-- The orphan sweep of the current sync (`src/cli/sync.rs:17-33`): the
loop skips non-directories, undecodable names and dot-named entries, and
its body performs no action, so the returned list of removed names is
accumulated unchanged at every entry. -/
def sync_gc_removed (entries : List DirEnt) : List String :=
  entries.foldl
    (fun removed e =>
      if ¬ e.isDir then removed
      else
        match e.name with
        | none => removed
        | some n => if startsWithDot n then removed else removed)
    []

/-- The orphan sweep of the legacy sync (`src/cli.rs:281-301`): the same
loop, but a surviving name absent from the configured skill names is
removed (`fs::remove_dir_all`). -/
def sync_gc_removed_legacy (entries : List DirEnt) (configured : List String) : List String :=
  entries.foldl
    (fun removed e =>
      if ¬ e.isDir then removed
      else
        match e.name with
        | none => removed
        | some n =>
          if startsWithDot n then removed
          else if configured.contains n then removed else removed ++ [n])
    []

/-- The prompt-answer test shared by the sync confirmation
(`src/cli/sync.rs:61-68`): the line read from standard input is trimmed
and lowercased and must be `y` or `yes`; a failed read leaves the buffer
empty, which is a refusal. -/
def answer_is_yes (input : String) : Bool :=
  let answer := lowerStr (strTrim input)
  answer == "y" || answer == "yes"

/-- The per-skill `needs_download` decision of `sync_skills`
(`src/cli/sync.rs:46-75`): a missing directory always downloads; a
checksum equal to the recorded one is up to date; a differing checksum
asks for confirmation; a checksum error downloads. -/
def sync_needs_download (entry : SkillEntry) (dirExists : Bool)
    (checksumRes : Except String String) (promptInput : String) : Bool :=
  if ¬ dirExists then true
  else
    match checksumRes with
    | .ok c => if c = entry.checksum then false else answer_is_yes promptInput
    | .error _ => true

/-- The effect outcomes of the download branch of `sync_skills`
(`src/cli/sync.rs:77-130`): the outcome of `download_and_extract` into
the temp directory, the `ensure_skill_manifest` test on the staged
content, whether the rename into place succeeded, the staged directory
content (of type `δ`, opaque to the decision logic), and the outcome of
`calculate_checksum` on the renamed directory. -/
structure SyncDownloadEnv (δ : Type) where
  downloadRes : Except SkillsError Unit
  manifestOk : Bool
  renameOk : Bool
  newDir : δ
  newChecksumRes : Except String String
deriving Repr

/-- One iteration of the sync loop for one skill
(`src/cli/sync.rs:42-131`), returning the on-disk state of the skill
directory (`none` when absent) and the manifest record afterwards.
`checksumRes` is the outcome of `calculate_checksum` on the existing
directory.  On the download path, the old directory is removed before the
rename, so a failing rename leaves the directory absent; a failing
download, or staged content without `SKILL.md`, leaves everything
untouched; a checksum failure after the rename leaves the manifest record
unchanged. -/
def sync_skill_step {δ : Type} (entry : SkillEntry) (dir : Option δ)
    (checksumRes : Except String String) (promptInput : String)
    (env : SyncDownloadEnv δ) : Option δ × SkillEntry :=
  if sync_needs_download entry dir.isSome checksumRes promptInput then
    match env.downloadRes with
    | .error _ => (dir, entry)
    | .ok _ =>
      if ¬ env.manifestOk then (dir, entry)
      else if ¬ env.renameOk then (none, entry)
      else
        match env.newChecksumRes with
        | .ok c => (some env.newDir, { entry with checksum := c })
        | .error _ => (some env.newDir, entry)
  else (dir, entry)

/-- The number of occurrences of a character in a string (used to count
`/` separators in a candidate's ref). -/
def countChar (c : Char) (s : String) : Nat :=
  s.data.count c

/-- The number of path segments of a joined ref string: separators plus
one. -/
def refSegments (g : GitHubUrl) : Nat :=
  countChar '/' g.ref + 1

/-- Replace the content stored for path `p` in a directory. -/
def set_content (files : List (String × List Nat)) (p : String) (c : List Nat) :
    List (String × List Nat) :=
  files.map fun f => if f.1 == p then (f.1, c) else f

/-- The length of the content bytes behind a read outcome (zero for an
error), used to account for hash-stream lengths. -/
def contentLen : Except String (List Nat) → Nat
  | .ok c => c.length
  | .error _ => 0

/-! ## Theorems -/

/-- The sweep-loop body of the current sync never changes the
accumulator, whatever the entry is. -/
theorem sync_gc_step_const (acc : List String) (e : DirEnt) :
    (if ¬ e.isDir then acc
     else
       match e.name with
       | none => acc
       | some n => if startsWithDot n then acc else acc) = acc := by
  rcases e with ⟨name, isDir⟩
  cases isDir <;> cases name <;> simp

/-- **C1.** The claim: after `sync_skills` completes, every on-disk
directory under the skills root absent from the manifest has been deleted
(garbage collection).  The code: the sweep loop of `src/cli/sync.rs:17-33`
enumerates the entries, skips non-directories, undecodable names and
dot-names, and then does nothing — it removes no directory at all, so an
orphan directory (here `orphan`, with an empty manifest) survives sync.
The legacy sweep of `src/cli.rs:281-301` (same loop with the
`fs::remove_dir_all` call in place) does remove it, which together with
the spec shows the deletion is the intent and its omission a slip. -/
theorem claim_C1 :
    (∀ entries : List DirEnt, sync_gc_removed entries = []) ∧
    sync_gc_removed_legacy [⟨some "orphan", true⟩] [] = ["orphan"] := by
  constructor
  · intro entries
    unfold sync_gc_removed
    suffices h : ∀ acc : List String,
        entries.foldl
          (fun removed e =>
            if ¬ e.isDir then removed
            else
              match e.name with
              | none => removed
              | some n => if startsWithDot n then removed else removed)
          acc = acc from h []
    induction entries with
    | nil => intro acc; rfl
    | cons e t ih =>
      intro acc
      rw [List.foldl_cons, sync_gc_step_const acc e, ih acc]
  · decide

/-- Unfolding of the candidate loop at a non-empty candidate list. -/
theorem install_resolve_loop_cons (url : String)
    (probe : GitHubUrl → Except SkillsError ContentsResponse)
    (c : GitHubUrl) (rest : List GitHubUrl) :
    install_resolve_loop url probe (c :: rest) =
      match probe c with
      | .ok contents => .ok (c, contents)
      | .error e =>
        if e.isNotFound then install_resolve_loop url probe rest else .error e := rfl

/-- **C3.** For every candidate list: a `NotFound` probe outcome advances
to the next candidate; any other probe error is returned immediately,
whatever the remaining candidates are; and when every candidate probes to
`NotFound` the loop fails with `PathNotFound` carrying the full original
URL (`src/cli/install.rs:44-56`). -/
theorem claim_C3 :
    (∀ (url : String) (probe : GitHubUrl → Except SkillsError ContentsResponse)
       (c : GitHubUrl) (rest : List GitHubUrl) (e : SkillsError),
       probe c = .error e → e.isNotFound = false →
       install_resolve_loop url probe (c :: rest) = .error e) ∧
    (∀ (url : String) (probe : GitHubUrl → Except SkillsError ContentsResponse)
       (c : GitHubUrl) (rest : List GitHubUrl) (u : String),
       probe c = .error (.NotFound u) →
       install_resolve_loop url probe (c :: rest) = install_resolve_loop url probe rest) ∧
    (∀ (url : String) (probe : GitHubUrl → Except SkillsError ContentsResponse)
       (cs : List GitHubUrl),
       (∀ c ∈ cs, ∃ u, probe c = .error (.NotFound u)) →
       install_resolve_loop url probe cs = .error (.PathNotFound url)) := by
  refine ⟨?_, ?_, ?_⟩
  · intro url probe c rest e hp hnf
    rw [install_resolve_loop_cons, hp]
    dsimp only
    rw [hnf]
    rfl
  · intro url probe c rest u hp
    rw [install_resolve_loop_cons, hp]
    dsimp only [SkillsError.isNotFound]
    rw [if_pos rfl]
  · intro url probe cs h
    induction cs with
    | nil => rfl
    | cons c t ih =>
      obtain ⟨u, hu⟩ := h c (List.mem_cons_self c t)
      rw [install_resolve_loop_cons, hu]
      dsimp only [SkillsError.isNotFound]
      rw [if_pos rfl]
      exact ih fun c' hc' => h c' (List.mem_cons_of_mem c hc')

/-- Witness for **C3**: each clause applied at a concrete probe. -/
theorem claim_C3_witness :
    ((fun _ : GitHubUrl => (.error .RateLimited : Except SkillsError ContentsResponse))
        ⟨"o/r", "main", "p"⟩ = .error .RateLimited ∧
      install_resolve_loop "U" (fun _ => .error .RateLimited) [⟨"o/r", "main", "p"⟩] =
        .error .RateLimited) ∧
    (install_resolve_loop "U" (fun _ => .error (.NotFound "n"))
        [⟨"o/r", "main", "p"⟩, ⟨"o/r", "m2", "p2"⟩] =
      install_resolve_loop "U" (fun _ => .error (.NotFound "n")) [⟨"o/r", "m2", "p2"⟩]) ∧
    (install_resolve_loop "U" (fun _ => .error (.NotFound "n")) [⟨"o/r", "main", "p"⟩] =
      .error (.PathNotFound "U")) :=
  ⟨⟨rfl, claim_C3.1 "U" (fun _ => .error .RateLimited) ⟨"o/r", "main", "p"⟩ [] .RateLimited rfl rfl⟩,
   claim_C3.2.1 "U" (fun _ => .error (.NotFound "n")) ⟨"o/r", "main", "p"⟩
     [⟨"o/r", "m2", "p2"⟩] "n" rfl,
   claim_C3.2.2 "U" (fun _ => .error (.NotFound "n")) [⟨"o/r", "main", "p"⟩]
     fun _ _ => ⟨"n", rfl⟩⟩

/-- **C5, counterexample.** The claim says a checksum match with a moved
ref/commit is re-downloaded.  With a recorded entry whose source URL
differs from the newly supplied one and the confirmation declined
(`confirm_action` returning `false`), `install_single_skill` returns at
`src/cli/install.rs:112-115`: the action is `cancelled`, not `download`,
even though the recorded sha `s1` differs from the fresh sha `s2` while
the checksum matches. -/
theorem claim_C5_counterexample :
    install_single_decision (some ⟨"u1", "o/r", "c0", "s1", "p", "chk"⟩) "u2" true "s2"
        (some "chk") false = .cancelled ∧
    SingleInstallAction.cancelled ≠ SingleInstallAction.download := by
  decide

/-- **C5, amended.** Unless the install is cancelled at the
different-source prompt (same recorded source URL, or confirmed), the
download is skipped iff a manifest record exists, the directory exists,
the fresh contents sha equals the recorded one and the recomputed
checksum equals the recorded one; otherwise it downloads (in particular a
checksum match with a moved sha downloads).  On the skip path the only
manifest field rewritten is `source_url`
(`src/cli/install.rs:99-139` and `125-130`). -/
theorem claim_C5 (existing : Option SkillEntry) (source_url : String) (dirExists : Bool)
    (sha : String) (checksumRes : Option String) (confirm : Bool)
    (hnc : ∀ e, existing = some e → e.source_url = source_url ∨ confirm = true) :
    (install_single_decision existing source_url dirExists sha checksumRes confirm =
        .skipUpToDate ↔
      ∃ e, existing = some e ∧ dirExists = true ∧ sha = e.sha ∧ checksumRes = some e.checksum) ∧
    (install_single_decision existing source_url dirExists sha checksumRes confirm =
        .download ↔
      ¬ ∃ e, existing = some e ∧ dirExists = true ∧ sha = e.sha ∧
        checksumRes = some e.checksum) ∧
    (∀ e u, install_single_skip_entry e u = { e with source_url := u }) := by
  refine ⟨?_, ?_, ?_⟩
  · cases existing with
    | none => simp [install_single_decision]
    | some e0 =>
      have hur := hnc e0 rfl
      have hcond : ¬ (e0.source_url ≠ source_url ∧ ¬ confirm = true) := by
        rcases hur with h | h
        · intro hh; exact hh.1 h
        · intro hh; exact hh.2 h
      rw [install_single_decision, if_neg hcond]
      by_cases hskip : dirExists = true ∧ sha = e0.sha ∧ checksumRes = some e0.checksum
      · rw [if_pos hskip]
        simp [hskip]
      · rw [if_neg hskip]
        constructor
        · intro h; exact absurd h (by decide)
        · rintro ⟨e, he, hrest⟩
          injection he with he'
          subst he'
          exact absurd hrest hskip
  · cases existing with
    | none => simp [install_single_decision]
    | some e0 =>
      have hur := hnc e0 rfl
      have hcond : ¬ (e0.source_url ≠ source_url ∧ ¬ confirm = true) := by
        rcases hur with h | h
        · intro hh; exact hh.1 h
        · intro hh; exact hh.2 h
      rw [install_single_decision, if_neg hcond]
      by_cases hskip : dirExists = true ∧ sha = e0.sha ∧ checksumRes = some e0.checksum
      · rw [if_pos hskip]
        constructor
        · intro h; exact absurd h (by decide)
        · intro hne; exact absurd ⟨e0, rfl, hskip⟩ hne
      · rw [if_neg hskip]
        constructor
        · rintro - ⟨e, he, hrest⟩
          injection he with he'
          subst he'
          exact hskip hrest
        · intro _; rfl
  · intro e u
    unfold install_single_skip_entry
    split
    · rfl
    · rename_i h
      rw [not_not] at h
      cases e
      simp_all

/-- Witness for **C5**: the amended statement at a concrete up-to-date
record whose source URL is unchanged. -/
theorem claim_C5_witness :
    (∀ e : SkillEntry, some (⟨"u", "o/r", "c0", "s1", "p", "chk"⟩ : SkillEntry) = some e →
       e.source_url = "u" ∨ false = true) ∧
    (install_single_decision (some ⟨"u", "o/r", "c0", "s1", "p", "chk"⟩) "u" true "s1"
        (some "chk") false = .skipUpToDate ↔
      ∃ e, some (⟨"u", "o/r", "c0", "s1", "p", "chk"⟩ : SkillEntry) = some e ∧
        true = true ∧ "s1" = e.sha ∧ some "chk" = some e.checksum) :=
  ⟨fun e he => Or.inl (by cases he; rfl),
   (claim_C5 (some ⟨"u", "o/r", "c0", "s1", "p", "chk"⟩) "u" true "s1" (some "chk") false
     fun e he => Or.inl (by cases he; rfl)).1⟩

/-- **C8.** When the skill directory exists and its recomputed checksum
differs from the recorded one, a prompt answer other than `y`/`yes`
(including the empty answer left by a failed read) leaves the sync step
without any effect: the directory state and the manifest record are
returned exactly as they were (`src/cli/sync.rs:46-75`). -/
theorem claim_C8 {δ : Type} (entry : SkillEntry) (d : δ) (c : String)
    (promptInput : String) (env : SyncDownloadEnv δ)
    (hmismatch : c ≠ entry.checksum) (hno : answer_is_yes promptInput = false) :
    sync_skill_step entry (some d) (.ok c) promptInput env = (some d, entry) := by
  have hneeds : sync_needs_download entry (some d).isSome (.ok c) promptInput = false := by
    simp [sync_needs_download, hmismatch, hno]
  unfold sync_skill_step
  rw [hneeds]
  rfl

/-- Witness for **C8**: a concrete locally modified skill and a declined
prompt. -/
theorem claim_C8_witness :
    "sha256:other" ≠ ("chk" : String) ∧ answer_is_yes "" = false ∧
    sync_skill_step (⟨"u", "o/r", "c0", "s1", "p", "chk"⟩ : SkillEntry) (some 7)
        (.ok "sha256:other") "" ⟨.ok (), true, true, 9, .ok "x"⟩ = (some 7, ⟨"u", "o/r", "c0", "s1", "p", "chk"⟩) :=
  ⟨by decide, by decide,
   @claim_C8 Nat ⟨"u", "o/r", "c0", "s1", "p", "chk"⟩ 7 "sha256:other" ""
     ⟨.ok (), true, true, 9, .ok "x"⟩ (by decide) (by decide)⟩

/-- **C2, counterexample.** The claim: when no top-level `SKILL.md`
exists, exactly the subdirectories whose own listing contains a
`SKILL.md` become batch members, and with none the install fails with a
no-skills-found error.  The code: `install_batch_skills`
(`src/cli/install.rs:215-219`) collects every `dir`-typed entry without
listing it.  Listing `skills` as one subdirectory `helper` that contains
only `notes.md`, the claim requires `NoSkillsFound`; the orchestrator
collects `helper` anyway.  The unused probing helper `detect_skill_type`
(`src/cli/github.rs:231-276`) does return `NoSkillsFound` here, matching
the spec. -/
theorem claim_C2_counterexample :
    install_collect_batch "skills" [⟨"helper", "dir", "abc"⟩] = .ok ["helper"] ∧
    detect_skill_type "skills" [⟨"helper", "dir"⟩] (fun _ => .ok [⟨"notes.md", "file"⟩]) =
      .error (.NoSkillsFound "skills") ∧
    (Except.ok ["helper"] : Except SkillsError (List String)) ≠
      .error (.NoSkillsFound "skills") := by
  decide

/-- **C2, amended.** When the top-level listing has no `SKILL.md` file,
the install orchestrator collects as batch members the names of exactly
the `dir`-typed listing entries — regardless of whether the
subdirectories contain a `SKILL.md` — and fails with `NoSkillsFound` iff
the listing has no subdirectory at all
(`src/cli/install.rs:65-83` and `215-219`). -/
theorem claim_C2 (path : String) (entries : List ContentsEntry)
    (_hsingle : is_single_skill entries = false) :
    (install_collect_batch path entries = .error (.NoSkillsFound path) ↔
      ∀ e ∈ entries, e.type ≠ "dir") ∧
    ∀ members, install_collect_batch path entries = .ok members →
      ∀ n, n ∈ members ↔ ∃ e ∈ entries, e.type = "dir" ∧ e.name = n := by
  refine ⟨?_, ?_⟩
  · show (if (((entries.filter fun e => e.type == "dir").map fun e => e.name)).isEmpty
        then (.error (.NoSkillsFound path) : Except SkillsError (List String))
        else .ok ((entries.filter fun e => e.type == "dir").map fun e => e.name)) =
        .error (.NoSkillsFound path) ↔ ∀ e ∈ entries, e.type ≠ "dir"
    split
    · rename_i hemp
      simp only [List.isEmpty_iff, List.map_eq_nil_iff, List.filter_eq_nil_iff] at hemp
      constructor
      · intro _ e he hd
        exact hemp e he (by simp [hd])
      · intro _; rfl
    · rename_i hemp
      constructor
      · intro h; exact absurd h (by simp)
      · intro hall
        exfalso
        apply hemp
        simp only [List.isEmpty_iff, List.map_eq_nil_iff, List.filter_eq_nil_iff]
        intro e he
        simp [hall e he]
  · intro members h
    replace h : (if (((entries.filter fun e => e.type == "dir").map fun e => e.name)).isEmpty
        then (.error (.NoSkillsFound path) : Except SkillsError (List String))
        else .ok ((entries.filter fun e => e.type == "dir").map fun e => e.name)) =
        .ok members := h
    split at h
    · exact absurd h (by simp)
    · injection h with h'
      subst h'
      intro n
      simp only [List.mem_map, List.mem_filter, beq_iff_eq]
      constructor
      · rintro ⟨e, ⟨he, hd⟩, hn⟩
        exact ⟨e, he, hd, hn⟩
      · rintro ⟨e, he, hd, hn⟩
        exact ⟨e, ⟨he, hd⟩, hn⟩

/-- Witness for **C2**: a concrete listing with one subdirectory and no
top-level `SKILL.md`. -/
theorem claim_C2_witness :
    is_single_skill [⟨"foo", "dir", "s"⟩] = false ∧
    ((install_collect_batch "skills" [⟨"foo", "dir", "s"⟩] = .error (.NoSkillsFound "skills") ↔
       ∀ e ∈ [(⟨"foo", "dir", "s"⟩ : ContentsEntry)], e.type ≠ "dir") ∧
     ∀ members, install_collect_batch "skills" [(⟨"foo", "dir", "s"⟩ : ContentsEntry)] =
         .ok members →
       ∀ n, n ∈ members ↔
         ∃ e ∈ [(⟨"foo", "dir", "s"⟩ : ContentsEntry)], e.type = "dir" ∧ e.name = n) :=
  ⟨by decide, claim_C2 "skills" [⟨"foo", "dir", "s"⟩] (by decide)⟩

/-- The batch loop under successful commit resolution and manifest saves:
every member is processed, locally failing members are appended to the
failed list, the others are committed and counted. -/
theorem install_batch_loop_eq (r : GitRef) (members : List MemberFate) :
    ∀ (s : Nat) (f c : List String),
      (∀ m ∈ members, (member_commit_res r m).isOk = true ∧ m.saveRes = .ok ()) →
      install_batch_loop r members s f c =
        (c ++ (members.filter fun m => !m.localFailure).map fun m => m.name,
         .ok (s + ((members.filter fun m => !m.localFailure)).length,
              f ++ (members.filter fun m => m.localFailure).map fun m => m.name)) := by
  induction members with
  | nil => intro s f c _; simp [install_batch_loop]
  | cons m rest ih =>
    intro s f c h
    have hm := h m (List.mem_cons_self m rest)
    have hrest := fun m' hm' => h m' (List.mem_cons_of_mem m hm')
    by_cases h1 : m.tempExists = true
    · by_cases h2 : m.removeFails = true
      · have hlf : m.localFailure = true := by
          simp [MemberFate.localFailure, h2]
        rw [show install_batch_loop r (m :: rest) s f c =
            install_batch_loop r rest s (f ++ [m.name]) c by
          simp [install_batch_loop, h1, h2]]
        rw [ih s (f ++ [m.name]) c hrest]
        simp [List.filter_cons, hlf, List.append_assoc]
      · by_cases h3 : m.renameFails = true
        · have hlf : m.localFailure = true := by
            simp [MemberFate.localFailure, h3]
          rw [show install_batch_loop r (m :: rest) s f c =
              install_batch_loop r rest s (f ++ [m.name]) c by
            simp [install_batch_loop, h1, h2, h3]]
          rw [ih s (f ++ [m.name]) c hrest]
          simp [List.filter_cons, hlf, List.append_assoc]
        · cases hcs : m.checksumRes with
          | none =>
            have hlf : m.localFailure = true := by
              simp [MemberFate.localFailure, hcs]
            rw [show install_batch_loop r (m :: rest) s f c =
                install_batch_loop r rest s (f ++ [m.name]) c by
              simp [install_batch_loop, h1, h2, h3, hcs]]
            rw [ih s (f ++ [m.name]) c hrest]
            simp [List.filter_cons, hlf, List.append_assoc]
          | some ck =>
            obtain ⟨sres, hsr⟩ : ∃ sres, member_commit_res r m = .ok sres := by
              cases hres : member_commit_res r m with
              | error e =>
                rw [hres] at hm
                simp [Except.isOk, Except.toBool] at hm
              | ok v => exact ⟨v, rfl⟩
            have hlf : m.localFailure = false := by
              simp [MemberFate.localFailure, h1, h2, h3, hcs]
            rw [show install_batch_loop r (m :: rest) s f c =
                install_batch_loop r rest (s + 1) f (c ++ [m.name]) by
              simp [install_batch_loop, h1, h2, h3, hcs, hsr, hm.2]]
            rw [ih (s + 1) f (c ++ [m.name]) hrest]
            have harith : s + 1 + ((rest.filter fun m => !m.localFailure)).length =
                s + (((rest.filter fun m => !m.localFailure)).length + 1) := by omega
            simp [List.filter_cons, hlf, List.append_assoc, harith]
    · have hlf : m.localFailure = true := by
        simp [MemberFate.localFailure, h1]
      rw [show install_batch_loop r (m :: rest) s f c =
          install_batch_loop r rest s (f ++ [m.name]) c by
        simp [install_batch_loop, h1]]
      rw [ih s (f ++ [m.name]) c hrest]
      simp [List.filter_cons, hlf, List.append_assoc]

/-- **C6, counterexample.** The claim: no failure while installing one
sub-skill — including remote errors while processing it — prevents the
remaining sub-skills from being attempted, and mixed outcomes end in a
single partial-failure error.  The code: the `?` on `resolve_commit_sha`
(`src/cli/install.rs:315`) propagates a remote error immediately.  With
two members whose local steps all succeed, a rate-limit error while
resolving the first member's commit aborts the whole batch with
`RateLimited` — no member is committed and no `BatchInstallationFailed`
aggregate is produced — although the second member alone would have
succeeded. -/
theorem claim_C6_counterexample :
    install_batch_result (.Other "main")
        [⟨"bad", true, false, false, some "c1", .error .RateLimited, .ok ()⟩,
         ⟨"good", true, false, false, some "c2", .ok "deadbeef", .ok ()⟩] =
      ([], .error .RateLimited) ∧
    install_batch_result (.Other "main")
        [⟨"good", true, false, false, some "c2", .ok "deadbeef", .ok ()⟩] =
      (["good"], .ok ()) := by
  decide

/-- **C6, amended.** When every member's commit resolution and manifest
save succeed (in particular whenever the resolved ref is already a commit
SHA), the batch loop attempts every member: members failing a local step
(missing subtree in the download, removal failure, rename failure,
checksum failure) are recorded and do not prevent the remaining members
from being processed, already-committed members stay committed, and the
operation ends with `Ok` when nothing failed and otherwise with a single
`BatchInstallationFailed` carrying the success count and the failed names
in order (`src/cli/install.rs:266-353`).  An error from
`resolve_commit_sha` or `config.save`, however, propagates immediately
(see the counterexample). -/
theorem claim_C6 (r : GitRef) (members : List MemberFate)
    (h : ∀ m ∈ members, (member_commit_res r m).isOk = true ∧ m.saveRes = .ok ()) :
    install_batch_result r members =
      ((members.filter fun m => !m.localFailure).map fun m => m.name,
       if ((members.filter fun m => m.localFailure).map fun m => m.name).isEmpty
       then .ok ()
       else .error (.BatchInstallationFailed
         ((members.filter fun m => !m.localFailure)).length
         ((members.filter fun m => m.localFailure).map fun m => m.name))) := by
  unfold install_batch_result
  rw [install_batch_loop_eq r members 0 [] [] h]
  simp
  split <;> rfl

/-- Witness for **C6**: a three-member batch over a commit-SHA ref with
one missing subtree, one rename failure and one success. -/
theorem claim_C6_witness :
    (∀ m ∈ [(⟨"a", false, false, false, some "c1", .ok "s", .ok ()⟩ : MemberFate),
            ⟨"b", true, false, true, some "c2", .ok "s", .ok ()⟩,
            ⟨"c", true, false, false, some "c3", .ok "s", .ok ()⟩],
       (member_commit_res (.CommitSHA "deadbeef") m).isOk = true ∧ m.saveRes = .ok ()) ∧
    install_batch_result (.CommitSHA "deadbeef")
        [⟨"a", false, false, false, some "c1", .ok "s", .ok ()⟩,
         ⟨"b", true, false, true, some "c2", .ok "s", .ok ()⟩,
         ⟨"c", true, false, false, some "c3", .ok "s", .ok ()⟩] =
      (["c"], .error (.BatchInstallationFailed 1 ["a", "b"])) := by
  constructor
  · decide
  · rw [claim_C6 (.CommitSHA "deadbeef") _ (by decide)]
    decide

/-- The hasher fold fails exactly when some path in the list fails to
read (`fs::read(&path)?` in `src/utils.rs:22`). -/
theorem hash_stream_error_iff (read : String → Except String (List Nat)) :
    ∀ paths : List String,
      (hash_stream read paths).isOk = false ↔ ∃ p ∈ paths, (read p).isOk = false := by
  intro paths
  induction paths with
  | nil => simp [hash_stream, Except.isOk, Except.toBool]
  | cons p ps ih =>
    cases hp : read p with
    | error e =>
      simp only [hash_stream, hp]
      constructor
      · intro _; exact ⟨p, List.mem_cons_self p ps, by simp [hp, Except.isOk, Except.toBool]⟩
      · intro _; simp [Except.isOk, Except.toBool]
    | ok c =>
      cases hs : hash_stream read ps with
      | error e =>
        simp only [hash_stream, hp, hs]
        constructor
        · intro _
          obtain ⟨q, hq, hqf⟩ := (ih.mp (by simp [hs, Except.isOk, Except.toBool]))
          exact ⟨q, List.mem_cons_of_mem p hq, hqf⟩
        · intro _; simp [Except.isOk, Except.toBool]
      | ok rest =>
        simp only [hash_stream, hp, hs]
        constructor
        · intro hfalse
          simp [Except.isOk, Except.toBool] at hfalse
        · rintro ⟨q, hq, hqf⟩
          rcases List.mem_cons.mp hq with rfl | hq'
          · rw [hp] at hqf; simp [Except.isOk, Except.toBool] at hqf
          · have := ih.mpr ⟨q, hq', hqf⟩
            rw [hs] at this
            simp [Except.isOk, Except.toBool] at this

/-- `calculate_checksum` fails exactly when some file surviving the walk
fails to read; walk-level errors never cause a failure. -/
theorem calculate_checksum_error_iff (walk : List (Except String WalkEnt))
    (read : String → Except String (List Nat)) :
    (calculate_checksum walk read).isOk = false ↔
      ∃ p ∈ walk_file_paths walk, (read p).isOk = false := by
  unfold calculate_checksum
  cases hs : hash_stream read (List.insertionSort pathLe (walk_file_paths walk)) with
  | error e =>
    have h1 : (hash_stream read (List.insertionSort pathLe (walk_file_paths walk))).isOk
        = false := by rw [hs]; rfl
    obtain ⟨p, hp, hpf⟩ := (hash_stream_error_iff read _).mp h1
    have hp' : p ∈ walk_file_paths walk :=
      (List.perm_insertionSort pathLe (walk_file_paths walk)).mem_iff.mp hp
    exact ⟨fun _ => ⟨p, hp', hpf⟩, fun _ => rfl⟩
  | ok stream =>
    constructor
    · intro hfalse
      exact absurd hfalse (by simp [Except.isOk, Except.toBool])
    · rintro ⟨p, hp, hpf⟩
      have h2 := (hash_stream_error_iff read _).mpr
        ⟨p, (List.perm_insertionSort pathLe (walk_file_paths walk)).mem_iff.mpr hp, hpf⟩
      rw [hs] at h2
      exact absurd h2 (by simp [Except.isOk, Except.toBool])

/-- A walk consisting only of error entries yields no file paths. -/
theorem walk_file_paths_map_error : ∀ errs : List String,
    walk_file_paths (errs.map Except.error) = []
  | [] => rfl
  | _ :: t => walk_file_paths_map_error t

/-- **C7, counterexample.** The claim: a file or subtree that cannot be
read during the walk aborts checksum computation with an I/O error.  The
code: `filter_map(|e| e.ok())` (`src/utils.rs:11`) silently drops every
walk entry that errored (e.g. an unreadable subdirectory), so a walk
consisting of one error entry produces the digest of an empty directory
instead of an error. -/
theorem claim_C7_counterexample :
    calculate_checksum [.error "permission denied"] (fun _ => .error "permission denied") =
      .ok ("sha256:" ++ sha256hex []) := by
  decide

/-- **C7, amended.** Checksum computation aborts with an I/O error
exactly when a regular file that survived the walk fails to read; a walk
entry that itself errored (an unreadable file or subtree at the walk
level) is silently skipped and never causes a failure
(`src/utils.rs:7-27`). -/
theorem claim_C7 (walk : List (Except String WalkEnt))
    (read : String → Except String (List Nat)) :
    ((calculate_checksum walk read).isOk = false ↔
      ∃ p ∈ walk_file_paths walk, (read p).isOk = false) ∧
    ∀ errEntry : String,
      calculate_checksum (.error errEntry :: walk) read = calculate_checksum walk read := by
  exact ⟨calculate_checksum_error_iff walk read, fun _ => rfl⟩

/-- **C10.** A walk of a nonexistent (or otherwise unenterable) path
yields only error entries, which `calculate_checksum` skips: the result
is `Ok`, equal to the digest of an empty directory — `"sha256:"` followed
by the hex SHA-256 of the empty byte sequence — and an error arises only
from a failing read of a regular file found by the walk
(`src/utils.rs:7-27`). -/
theorem claim_C10 (errs : List String) (read : String → Except String (List Nat)) :
    calculate_checksum (errs.map Except.error) read = .ok ("sha256:" ++ sha256hex []) ∧
    calculate_checksum [] read = .ok ("sha256:" ++ sha256hex []) ∧
    sha256hex [] = "e3b0c44298fc1c149afbf4c8996fb92427ae41e4649b934ca495991b7852b855" ∧
    ∀ walk : List (Except String WalkEnt),
      (calculate_checksum walk read).isOk = false ↔
        ∃ p ∈ walk_file_paths walk, (read p).isOk = false := by
  refine ⟨?_, rfl, by decide, fun walk => calculate_checksum_error_iff walk read⟩
  unfold calculate_checksum
  rw [walk_file_paths_map_error]
  rfl

/-- String concatenation is associative. -/
theorem strAppendAssoc (a b c : String) : a ++ b ++ c = a ++ (b ++ c) := by
  apply String.ext
  simp [String.data_append, List.append_assoc]

/-- Joining a concatenation of two non-empty segment lists inserts one
separator between the two joined halves. -/
theorem joinSlash_append : ∀ (a b : List String), a ≠ [] → b ≠ [] →
    joinSlash (a ++ b) = joinSlash a ++ "/" ++ joinSlash b
  | [], _, ha, _ => absurd rfl ha
  | [x], b, _, hb => by
    cases b with
    | nil => exact absurd rfl hb
    | cons y t => rfl
  | x :: z :: t, b, _, hb => by
    have ih := joinSlash_append (z :: t) b (by simp) hb
    have h1 : joinSlash ((x :: z :: t) ++ b) = x ++ "/" ++ joinSlash ((z :: t) ++ b) := rfl
    rw [h1, ih, joinSlash, ← strAppendAssoc, ← strAppendAssoc]

/-- Counting occurrences distributes over string concatenation. -/
theorem countChar_append (c : Char) (a b : String) :
    countChar c (a ++ b) = countChar c a + countChar c b := by
  unfold countChar
  rw [String.data_append, List.count_append]

/-- A join of slash-free segments has one `/` fewer than it has
segments. -/
theorem countChar_joinSlash : ∀ l : List String, l ≠ [] →
    (∀ x ∈ l, countChar '/' x = 0) →
    countChar '/' (joinSlash l) = l.length - 1
  | [], h, _ => absurd rfl h
  | [x], _, hf => by
    simp [joinSlash, hf x (List.mem_singleton_self x)]
  | x :: z :: t, _, hf => by
    have ih := countChar_joinSlash (z :: t) (by simp)
      (fun y hy => hf y (List.mem_cons_of_mem x hy))
    have h1 : joinSlash (x :: z :: t) = x ++ "/" ++ joinSlash (z :: t) := rfl
    rw [h1, countChar_append, countChar_append, hf x (List.mem_cons_self x (z :: t)), ih]
    have hsep : countChar '/' "/" = 1 := rfl
    rw [hsep]
    simp
    omega

/-- **C4.** A tail that splits (dropping empty segments) into fewer than
two segments is rejected at parse time with `InvalidUrl`
(`src/models.rs:72-74`); and for every spec whose tail has `k ≥ 2`
segments, the candidate list has exactly `k − 1` entries, the `i`-th
candidate joins the first `i + 1` segments as the ref and the remaining
ones as the path (so, for slash-free segments, the ref segment count of
the `i`-th candidate is exactly `i + 1`, strictly increasing — shortest
ref first), and ref `++ "/" ++` path reconstitutes the joined tail
exactly (`src/models.rs:86-94`). -/
theorem claim_C4 :
    (∀ s : String,
       (((splitChar '/' s.data).map String.mk).filter (fun part => part ≠ "")).length < 2 →
       parse_tail s = .error (.InvalidUrl s)) ∧
    (∀ spec : GitHubUrlSpec, 2 ≤ spec.tail.length →
       spec.candidates.length = spec.tail.length - 1 ∧
       (∀ i, i < spec.tail.length - 1 →
         spec.candidates[i]? = some
           ⟨spec.slug, joinSlash (spec.tail.take (i + 1)),
            joinSlash (spec.tail.drop (i + 1))⟩ ∧
         joinSlash (spec.tail.take (i + 1)) ++ "/" ++ joinSlash (spec.tail.drop (i + 1)) =
           joinSlash spec.tail) ∧
       ((∀ x ∈ spec.tail, countChar '/' x = 0) →
         ∀ i gi, i < spec.tail.length - 1 → spec.candidates[i]? = some gi →
           refSegments gi = i + 1)) := by
  constructor
  · intro s hlen
    unfold parse_tail
    rw [if_pos hlen]
  · intro spec hk
    have htail_ne : spec.tail ≠ [] := by
      intro h; rw [h] at hk; simp at hk
    refine ⟨?_, ?_, ?_⟩
    · simp [GitHubUrlSpec.candidates, List.length_range']
    · intro i hi
      have hget : spec.candidates[i]? = some
          ⟨spec.slug, joinSlash (spec.tail.take (i + 1)),
           joinSlash (spec.tail.drop (i + 1))⟩ := by
        unfold GitHubUrlSpec.candidates
        rw [List.getElem?_map, List.getElem?_range' 1 1 hi]
        simp [Nat.add_comm]
      refine ⟨hget, ?_⟩
      have htake_ne : spec.tail.take (i + 1) ≠ [] := by
        intro h
        rcases List.take_eq_nil_iff.mp h with h' | h'
        · exact absurd h' (by simp)
        · exact htail_ne h'
      have hdrop_ne : spec.tail.drop (i + 1) ≠ [] := by
        intro h
        have := List.drop_eq_nil_iff.mp h
        omega
      rw [← joinSlash_append (spec.tail.take (i + 1)) (spec.tail.drop (i + 1)) htake_ne hdrop_ne,
        List.take_append_drop]
    · intro hsf i gi hi hget
      have hget' : spec.candidates[i]? = some
          ⟨spec.slug, joinSlash (spec.tail.take (i + 1)),
           joinSlash (spec.tail.drop (i + 1))⟩ := by
        unfold GitHubUrlSpec.candidates
        rw [List.getElem?_map, List.getElem?_range' 1 1 hi]
        simp [Nat.add_comm]
      rw [hget'] at hget
      injection hget with hgi
      subst hgi
      have htake_ne : spec.tail.take (i + 1) ≠ [] := by
        intro h
        rcases List.take_eq_nil_iff.mp h with h' | h'
        · exact absurd h' (by simp)
        · exact htail_ne h'
      have hlen_take : (spec.tail.take (i + 1)).length = i + 1 := by
        rw [List.length_take]
        omega
      unfold refSegments
      show countChar '/' (joinSlash (spec.tail.take (i + 1))) + 1 = i + 1
      rw [countChar_joinSlash (spec.tail.take (i + 1)) htake_ne
        (fun x hx => hsf x (List.mem_of_mem_take hx)), hlen_take]
      omega

/-- Witness for **C4**: the three-segment tail `main/skills/foo`. -/
theorem claim_C4_witness :
    ((((splitChar '/' "main".data).map String.mk).filter (fun part => part ≠ "")).length < 2 ∧
     parse_tail "main" = .error (.InvalidUrl "main")) ∧
    (2 ≤ (GitHubUrlSpec.mk "o/r" ["main", "skills", "foo"]).tail.length ∧
     (GitHubUrlSpec.mk "o/r" ["main", "skills", "foo"]).candidates.length =
       (GitHubUrlSpec.mk "o/r" ["main", "skills", "foo"]).tail.length - 1 ∧
     (∀ i, i < (GitHubUrlSpec.mk "o/r" ["main", "skills", "foo"]).tail.length - 1 →
       (GitHubUrlSpec.mk "o/r" ["main", "skills", "foo"]).candidates[i]? = some
         ⟨"o/r", joinSlash (["main", "skills", "foo"].take (i + 1)),
          joinSlash (["main", "skills", "foo"].drop (i + 1))⟩ ∧
       joinSlash (["main", "skills", "foo"].take (i + 1)) ++ "/" ++
         joinSlash (["main", "skills", "foo"].drop (i + 1)) =
         joinSlash ["main", "skills", "foo"]) ∧
     ((∀ x ∈ ["main", "skills", "foo"], countChar '/' x = 0) →
       ∀ i gi, i < (GitHubUrlSpec.mk "o/r" ["main", "skills", "foo"]).tail.length - 1 →
         (GitHubUrlSpec.mk "o/r" ["main", "skills", "foo"]).candidates[i]? = some gi →
         refSegments gi = i + 1)) :=
  ⟨⟨by decide, claim_C4.1 "main" (by decide)⟩,
   ⟨by decide, claim_C4.2 (GitHubUrlSpec.mk "o/r" ["main", "skills", "foo"]) (by decide)⟩⟩

/-- The byte-lexicographic comparison is total. -/
theorem charListLe_total : ∀ a b : List Char, charListLe a b = true ∨ charListLe b a = true
  | [], _ => Or.inl rfl
  | _ :: _, [] => Or.inr rfl
  | x :: xs, y :: ys => by
    by_cases hxy : x < y
    · left; simp [charListLe, hxy]
    · by_cases hyx : y < x
      · right; simp [charListLe, hyx, hxy]
      · rcases charListLe_total xs ys with h | h
        · left; simp [charListLe, hxy, hyx, h]
        · right; simp [charListLe, hxy, hyx, h]

/-- The byte-lexicographic comparison is transitive. -/
theorem charListLe_trans : ∀ a b c : List Char,
    charListLe a b = true → charListLe b c = true → charListLe a c = true
  | [], _, _, _, _ => rfl
  | x :: xs, [], c, hab, _ => by simp [charListLe] at hab
  | _ :: _, _ :: _, [], _, hbc => by simp [charListLe] at hbc
  | x :: xs, y :: ys, z :: zs, hab, hbc => by
    by_cases hxy : x < y
    · by_cases hyz : y < z
      · simp [charListLe, lt_trans hxy hyz]
      · by_cases hzy : z < y
        · simp [charListLe, hyz, hzy] at hbc
        · have hyez : y = z := le_antisymm (not_lt.mp hzy) (not_lt.mp hyz)
          subst hyez
          simp [charListLe, hxy]
    · by_cases hyx : y < x
      · simp [charListLe, hxy, hyx] at hab
      · have hxey : x = y := le_antisymm (not_lt.mp hyx) (not_lt.mp hxy)
        subst hxey
        simp only [charListLe, if_neg (lt_irrefl x)] at hab
        by_cases hxz : x < z
        · simp [charListLe, hxz]
        · by_cases hzx : z < x
          · simp [charListLe, hxz, hzx] at hbc
          · have hxez : x = z := le_antisymm (not_lt.mp hzx) (not_lt.mp hxz)
            subst hxez
            simp only [charListLe, if_neg (lt_irrefl x)] at hbc ⊢
            exact charListLe_trans xs ys zs hab hbc

/-- The byte-lexicographic comparison is antisymmetric. -/
theorem charListLe_antisymm : ∀ a b : List Char,
    charListLe a b = true → charListLe b a = true → a = b
  | [], [], _, _ => rfl
  | [], _ :: _, _, hba => by simp [charListLe] at hba
  | _ :: _, [], hab, _ => by simp [charListLe] at hab
  | x :: xs, y :: ys, hab, hba => by
    by_cases hxy : x < y
    · simp [charListLe, hxy, asymm hxy] at hba
    · by_cases hyx : y < x
      · simp [charListLe, hxy, hyx] at hab
      · have hxey : x = y := le_antisymm (not_lt.mp hyx) (not_lt.mp hxy)
        subst hxey
        simp only [charListLe, if_neg (lt_irrefl x)] at hab hba
        rw [charListLe_antisymm xs ys hab hba]

instance : IsTotal String pathLe :=
  ⟨fun a b => charListLe_total a.data b.data⟩

instance : IsTrans String pathLe :=
  ⟨fun a b c => charListLe_trans a.data b.data c.data⟩

instance : IsAntisymm String pathLe :=
  ⟨fun a b hab hba => String.ext (charListLe_antisymm a.data b.data hab hba)⟩

/-- The walk of a fully readable directory yields exactly its paths. -/
theorem walk_file_paths_dirWalk : ∀ f : List (String × List Nat),
    walk_file_paths (dirWalk f) = f.map Prod.fst
  | [] => rfl
  | x :: t => congrArg (x.1 :: ·) (walk_file_paths_dirWalk t)

/-- Two read functions agreeing on a path list produce the same hash
stream over it. -/
theorem hash_stream_congr (r1 r2 : String → Except String (List Nat)) :
    ∀ paths : List String, (∀ q ∈ paths, r1 q = r2 q) →
      hash_stream r1 paths = hash_stream r2 paths
  | [], _ => rfl
  | q :: qs, h => by
    have hq := h q (List.mem_cons_self q qs)
    have ih := hash_stream_congr r1 r2 qs fun q' hq' => h q' (List.mem_cons_of_mem q hq')
    simp only [hash_stream, hq, ih]

/-- Over totally readable paths the hash stream is `Ok` and its length is
the sum of path-byte and content lengths. -/
theorem hash_stream_total_length (r : String → Except String (List Nat)) :
    ∀ paths : List String, (∀ q ∈ paths, ∃ cq, r q = .ok cq) →
      ∃ s, hash_stream r paths = .ok s ∧
        s.length = (paths.map fun q => (utf8Bytes q).length + contentLen (r q)).sum
  | [], _ => ⟨[], rfl, rfl⟩
  | q :: qs, h => by
    obtain ⟨cq, hcq⟩ := h q (List.mem_cons_self q qs)
    obtain ⟨s, hs, hlen⟩ := hash_stream_total_length r qs
      fun q' hq' => h q' (List.mem_cons_of_mem q hq')
    refine ⟨utf8Bytes q ++ cq ++ s, ?_, ?_⟩
    · simp only [hash_stream, hcq, hs]
    · simp [hlen, hcq, contentLen]
      omega

/-- With unique paths, reading a stored file returns its content. -/
theorem dirRead_of_mem : ∀ (f : List (String × List Nat)) (p : String) (c : List Nat),
    (f.map Prod.fst).Nodup → (p, c) ∈ f → dirRead f p = .ok c
  | [], _, _, _, hmem => absurd hmem (List.not_mem_nil _)
  | x :: t, p, c, hnd, hmem => by
    cases hx : x.1 == p with
    | true =>
      have hx' : x.1 = p := by exact beq_iff_eq.mp hx
      have hxe : x = (p, c) := by
        apply List.inj_on_of_nodup_map hnd (List.mem_cons_self x t) hmem
        simpa using hx'
      show (match List.find? (fun f => f.1 == p) (x :: t) with
            | some f => Except.ok f.2
            | none => Except.error "missing") = Except.ok c
      rw [@List.find?_cons_of_pos _ (fun f => f.1 == p) x t hx, hxe]
    | false =>
      have hmem' : (p, c) ∈ t := by
        rcases List.mem_cons.mp hmem with heq | h
        · rw [← heq] at hx; simp at hx
        · exact h
      have hnd' : (t.map Prod.fst).Nodup := by
        rw [List.map_cons] at hnd
        exact hnd.of_cons
      show (match List.find? (fun f => f.1 == p) (x :: t) with
            | some f => Except.ok f.2
            | none => Except.error "missing") = Except.ok c
      rw [@List.find?_cons_of_neg _ (fun f => f.1 == p) x t (by simp [hx])]
      exact dirRead_of_mem t p c hnd' hmem'

/-- Reading an absent path fails. -/
theorem dirRead_not_mem : ∀ (f : List (String × List Nat)) (p : String),
    p ∉ f.map Prod.fst → dirRead f p = .error "missing"
  | [], _, _ => rfl
  | x :: t, p, hnm => by
    have hx : (x.1 == p) = false := by
      simp only [List.map_cons, List.mem_cons] at hnm
      simp only [beq_eq_false_iff_ne, ne_eq]
      intro h; exact hnm (Or.inl h.symm)
    show (match List.find? (fun f => f.1 == p) (x :: t) with
          | some f => Except.ok f.2
          | none => Except.error "missing") = Except.error "missing"
    rw [@List.find?_cons_of_neg _ (fun f => f.1 == p) x t (by simp [hx])]
    exact dirRead_not_mem t p fun h => hnm (by simp only [List.map_cons, List.mem_cons]; exact Or.inr h)

/-- Reading is invariant under permutation of a directory with unique
paths. -/
theorem dirRead_perm (f1 f2 : List (String × List Nat)) (hperm : f1.Perm f2)
    (hnd : (f1.map Prod.fst).Nodup) (p : String) : dirRead f1 p = dirRead f2 p := by
  by_cases hp : p ∈ f1.map Prod.fst
  · obtain ⟨x, hx, hx1⟩ := List.mem_map.mp hp
    have hx' : (p, x.2) ∈ f1 := by
      have : x = (p, x.2) := by
        rcases x with ⟨a, b⟩; simp at hx1; rw [hx1]
      rw [← this]; exact hx
    rw [dirRead_of_mem f1 p x.2 hnd hx',
      dirRead_of_mem f2 p x.2 ((hperm.map Prod.fst).nodup hnd) (hperm.mem_iff.mp hx')]
  · rw [dirRead_not_mem f1 p hp,
      dirRead_not_mem f2 p fun h => hp ((hperm.map Prod.fst).mem_iff.mpr h)]

/-- Replacing one path's content leaves the path list unchanged. -/
theorem set_content_keys (f : List (String × List Nat)) (p : String) (c : List Nat) :
    (set_content f p c).map Prod.fst = f.map Prod.fst := by
  unfold set_content
  rw [List.map_map]
  apply List.map_congr_left
  intro x _
  dsimp only [Function.comp]
  split <;> rfl

/-- Replacing the content of `p` does not change reads of other paths. -/
theorem dirRead_set_content_ne : ∀ (f : List (String × List Nat)) (p : String)
    (c : List Nat) (q : String), q ≠ p →
    dirRead (set_content f p c) q = dirRead f q
  | [], _, _, _, _ => rfl
  | x :: t, p, c, q, hqp => by
    have hkey : (if x.1 == p then (x.1, c) else x).1 = x.1 := by split <;> rfl
    cases hq : x.1 == q with
    | true =>
      have hq' : x.1 = q := beq_iff_eq.mp hq
      have hxp : (x.1 == p) = false := by
        simp only [beq_eq_false_iff_ne, ne_eq]
        rw [hq']; exact hqp
      show (match List.find? (fun f => f.1 == q) ((if x.1 == p then (x.1, c) else x) :: set_content t p c) with
            | some f => Except.ok f.2
            | none => Except.error "missing") =
        (match List.find? (fun f => f.1 == q) (x :: t) with
         | some f => Except.ok f.2
         | none => Except.error "missing")
      rw [@List.find?_cons_of_pos _ (fun f => f.1 == q) _ (set_content t p c)
          (by show ((if (x.1 == p) = true then (x.1, c) else x).1 == q) = true
              rw [hkey]; exact hq),
        @List.find?_cons_of_pos _ (fun f => f.1 == q) x t hq]
      dsimp only
      rw [hxp]
      simp
    | false =>
      show (match List.find? (fun f => f.1 == q) ((if x.1 == p then (x.1, c) else x) :: set_content t p c) with
            | some f => Except.ok f.2
            | none => Except.error "missing") =
        (match List.find? (fun f => f.1 == q) (x :: t) with
         | some f => Except.ok f.2
         | none => Except.error "missing")
      rw [@List.find?_cons_of_neg _ (fun f => f.1 == q) _ (set_content t p c)
          (by show ¬ ((if (x.1 == p) = true then (x.1, c) else x).1 == q) = true
              rw [hkey]; simp [hq]),
        @List.find?_cons_of_neg _ (fun f => f.1 == q) x t (by simp [hq])]
      exact dirRead_set_content_ne t p c q hqp

/-- After replacing the content of a stored path, reading it returns the
new content. -/
theorem dirRead_set_content_self (f : List (String × List Nat)) (p : String)
    (c c' : List Nat) (hnd : (f.map Prod.fst).Nodup) (hmem : (p, c) ∈ f) :
    dirRead (set_content f p c') p = .ok c' := by
  apply dirRead_of_mem
  · rw [set_content_keys]; exact hnd
  · have : ((p, c') : String × List Nat) = if (p, c).1 == p then ((p, c).1, c') else (p, c) := by
      simp
    rw [this]
    exact List.mem_map_of_mem _ hmem

/-- Two hash streams over the same duplicate-free, totally readable path
list, whose reads differ exactly at one listed path, are different. -/
theorem hash_stream_ne_of_single_diff :
    ∀ (paths : List String) (r1 r2 : String → Except String (List Nat)) (p : String),
    paths.Nodup → p ∈ paths →
    (∀ q ∈ paths, q ≠ p → r1 q = r2 q) →
    ∀ c1 c2, r1 p = .ok c1 → r2 p = .ok c2 → c1 ≠ c2 →
    (∀ q ∈ paths, ∃ cq, r1 q = .ok cq) →
    hash_stream r1 paths ≠ hash_stream r2 paths
  | [], _, _, p, _, hp, _, _, _, _, _, _, _ => absurd hp (List.not_mem_nil p)
  | q :: qs, r1, r2, p, hnd, hp, hagree, c1, c2, hc1, hc2, hne, htot => by
    rcases List.mem_cons.mp hp with rfl | hp'
    · have hqs_agree : ∀ q' ∈ qs, r1 q' = r2 q' := by
        intro q' hq'
        refine hagree q' (List.mem_cons_of_mem _ hq') ?_
        intro h; rw [h] at hq'
        exact (List.nodup_cons.mp hnd).1 hq'
      have hrest : hash_stream r1 qs = hash_stream r2 qs := hash_stream_congr r1 r2 qs hqs_agree
      obtain ⟨s, hs, _⟩ := hash_stream_total_length r1 qs
        fun q' hq' => htot q' (List.mem_cons_of_mem _ hq')
      intro hcontra
      simp only [hash_stream, hc1, hc2, ← hrest, hs] at hcontra
      injection hcontra with hstreams
      have h1 := List.append_cancel_right hstreams
      have h2 := List.append_cancel_left h1
      exact hne h2
    · have hqp : q ≠ p := by
        intro h; rw [h] at hnd
        exact (List.nodup_cons.mp hnd).1 hp'
      obtain ⟨cq, hcq⟩ := htot q (List.mem_cons_self q qs)
      have hcq2 : r2 q = .ok cq := by rw [← hagree q (List.mem_cons_self q qs) hqp]; exact hcq
      have ih := hash_stream_ne_of_single_diff qs r1 r2 p (List.nodup_cons.mp hnd).2 hp'
        (fun q' hq' => hagree q' (List.mem_cons_of_mem _ hq')) c1 c2 hc1 hc2 hne
        (fun q' hq' => htot q' (List.mem_cons_of_mem _ hq'))
      obtain ⟨s1, hs1, _⟩ := hash_stream_total_length r1 qs
        fun q' hq' => htot q' (List.mem_cons_of_mem _ hq')
      have htot2 : ∀ q' ∈ qs, ∃ cq', r2 q' = .ok cq' := by
        intro q' hq'
        by_cases hq'p : q' = p
        · exact ⟨c2, by rw [hq'p]; exact hc2⟩
        · obtain ⟨cq', hcq'⟩ := htot q' (List.mem_cons_of_mem _ hq')
          exact ⟨cq', by rw [← hagree q' (List.mem_cons_of_mem _ hq') hq'p]; exact hcq'⟩
      obtain ⟨s2, hs2, _⟩ := hash_stream_total_length r2 qs htot2
      intro hcontra
      simp only [hash_stream, hcq, hcq2, hs1, hs2] at hcontra
      injection hcontra with hstreams
      have hs12 : s1 = s2 := List.append_cancel_left hstreams
      apply ih
      rw [hs1, hs2, hs12]

/-- Reading any stored path succeeds (with whatever content the first
matching entry holds). -/
theorem dirRead_total (f : List (String × List Nat)) (q : String)
    (hq : q ∈ f.map Prod.fst) : ∃ c, dirRead f q = .ok c := by
  cases hf : List.find? (fun x => x.1 == q) f with
  | none =>
    obtain ⟨x, hx, hx1⟩ := List.mem_map.mp hq
    have := List.find?_eq_none.mp hf x hx
    simp [hx1] at this
  | some y =>
    refine ⟨y.2, ?_⟩
    show (match List.find? (fun x => x.1 == q) f with
          | some x => Except.ok x.2
          | none => Except.error "missing") = Except.ok y.2
    rw [hf]

/-- Every character encodes to at least one UTF-8 byte. -/
theorem utf8CharBytes_length_pos (c : Char) : 0 < (utf8CharBytes c).length := by
  simp only [utf8CharBytes]
  split_ifs <;> simp

/-- A non-empty string encodes to at least one UTF-8 byte. -/
theorem utf8Bytes_length_pos (p : String) (h : p ≠ "") : 0 < (utf8Bytes p).length := by
  have hdata : p.data ≠ [] := by
    intro hd
    exact h (String.ext hd)
  cases hp : p.data with
  | nil => exact absurd hp hdata
  | cons ch t =>
    unfold utf8Bytes
    rw [hp, List.flatMap_cons, List.length_append]
    have := utf8CharBytes_length_pos ch
    omega

/-- **C9, counterexample.** The claim: changing the content, name, or
presence of any file changes the checksum.  The code concatenates
relative-path bytes and content bytes with no separator or length framing
(`src/utils.rs:20-23`), so renaming the file `ab` (content byte `0x61`)
to `ba` — content unchanged, sibling file `aba` unchanged — re-sorts the
walk to feed the identical byte stream
`"ab"·0x61·"aba"·0x61 = "aba"·0x61·"ba"·0x61` to SHA-256: the two
distinct directories have equal checksums. -/
theorem claim_C9_counterexample :
    checksum_of_dir [("ab", [97]), ("aba", [97])] =
      checksum_of_dir [("ba", [97]), ("aba", [97])] ∧
    [("ab", [97]), ("aba", [97])] ≠ [("ba", [97]), ("aba", [97])] := by
  decide

/-- **C9, amended.** For directories with duplicate-free paths:
the checksum is invariant under permutation of the walk order (the paths
are sorted before hashing); the result is always `Ok` of a string of the
form `"sha256:" ++ hex`; and changing the *content* of a stored file, or
the *presence* of a file (adding one under a fresh non-empty path),
always changes the byte stream fed to SHA-256 — so the checksum then
changes unless SHA-256 itself collides on the two streams.  A *name*
change alone, however, can leave the stream (hence the checksum)
unchanged, as the counterexample shows, because path and content bytes
are concatenated without separators (`src/utils.rs:7-27`). -/
theorem claim_C9 :
    (∀ f1 f2 : List (String × List Nat), f1.Perm f2 → (f1.map Prod.fst).Nodup →
       checksum_of_dir f1 = checksum_of_dir f2) ∧
    (∀ f : List (String × List Nat), ∃ hex, checksum_of_dir f = .ok ("sha256:" ++ hex)) ∧
    (∀ (f : List (String × List Nat)) (p : String) (c c' : List Nat),
       (f.map Prod.fst).Nodup → (p, c) ∈ f → c' ≠ c →
       dir_stream (set_content f p c') ≠ dir_stream f) ∧
    (∀ (f : List (String × List Nat)) (p : String) (c : List Nat),
       (f.map Prod.fst).Nodup → p ∉ f.map Prod.fst → p ≠ "" →
       dir_stream ((p, c) :: f) ≠ dir_stream f) := by
  refine ⟨?_, ?_, ?_, ?_⟩
  · intro f1 f2 hperm hnd
    unfold checksum_of_dir calculate_checksum
    rw [walk_file_paths_dirWalk, walk_file_paths_dirWalk]
    have hsorted : List.insertionSort pathLe (f1.map Prod.fst) =
        List.insertionSort pathLe (f2.map Prod.fst) :=
      @List.eq_of_perm_of_sorted String pathLe _ _ _
        ((List.perm_insertionSort pathLe _).trans
          ((hperm.map Prod.fst).trans (List.perm_insertionSort pathLe _).symm))
        (List.sorted_insertionSort pathLe _) (List.sorted_insertionSort pathLe _)
    rw [hsorted,
      hash_stream_congr (dirRead f1) (dirRead f2) _
        (fun q _ => dirRead_perm f1 f2 hperm hnd q)]
  · intro f
    have htot : ∀ q ∈ List.insertionSort pathLe (walk_file_paths (dirWalk f)),
        ∃ c, dirRead f q = .ok c := by
      intro q hq
      rw [walk_file_paths_dirWalk] at hq
      exact dirRead_total f q ((List.perm_insertionSort pathLe _).subset hq)
    obtain ⟨s, hs, _⟩ := hash_stream_total_length (dirRead f) _ htot
    refine ⟨sha256hex s, ?_⟩
    unfold checksum_of_dir calculate_checksum
    rw [hs]
  · intro f p c c' hnd hmem hne
    unfold dir_stream
    rw [walk_file_paths_dirWalk, walk_file_paths_dirWalk, set_content_keys]
    apply hash_stream_ne_of_single_diff (List.insertionSort pathLe (f.map Prod.fst))
      (dirRead (set_content f p c')) (dirRead f) p
    · exact ((List.perm_insertionSort pathLe _).symm).nodup hnd
    · exact (List.perm_insertionSort pathLe _).mem_iff.mpr (List.mem_map_of_mem Prod.fst hmem)
    · exact fun q _ hq => dirRead_set_content_ne f p c' q hq
    · exact dirRead_set_content_self f p c c' hnd hmem
    · exact dirRead_of_mem f p c hnd hmem
    · exact hne
    · intro q hq
      apply dirRead_total
      rw [set_content_keys]
      exact (List.perm_insertionSort pathLe _).subset hq
  · intro f p c hnd hnp hpne
    unfold dir_stream
    rw [walk_file_paths_dirWalk, walk_file_paths_dirWalk]
    have hkeys : (((p, c) :: f).map Prod.fst) = p :: f.map Prod.fst := rfl
    have hreadp : dirRead ((p, c) :: f) p = .ok c := by
      show (match List.find? (fun x => x.1 == p) ((p, c) :: f) with
            | some x => Except.ok x.2
            | none => Except.error "missing") = Except.ok c
      rw [@List.find?_cons_of_pos _ (fun x => x.1 == p) (p, c) f (by simp)]
    have hread_ne : ∀ q, q ≠ p → dirRead ((p, c) :: f) q = dirRead f q := by
      intro q hq
      show (match List.find? (fun x => x.1 == q) ((p, c) :: f) with
            | some x => Except.ok x.2
            | none => Except.error "missing") = dirRead f q
      rw [@List.find?_cons_of_neg _ (fun x => x.1 == q) (p, c) f (by simp [hq, Ne.symm hq])]
      rfl
    obtain ⟨s1, hs1, hl1⟩ := hash_stream_total_length (dirRead ((p, c) :: f))
      (List.insertionSort pathLe (((p, c) :: f).map Prod.fst))
      (fun q hq => dirRead_total _ q ((List.perm_insertionSort pathLe _).subset hq))
    obtain ⟨s2, hs2, hl2⟩ := hash_stream_total_length (dirRead f)
      (List.insertionSort pathLe (f.map Prod.fst))
      (fun q hq => dirRead_total _ q ((List.perm_insertionSort pathLe _).subset hq))
    have hsum1 : ((List.insertionSort pathLe (((p, c) :: f).map Prod.fst)).map
        fun q => (utf8Bytes q).length + contentLen (dirRead ((p, c) :: f) q)).sum =
        (((p :: f.map Prod.fst)).map
          fun q => (utf8Bytes q).length + contentLen (dirRead ((p, c) :: f) q)).sum := by
      exact ((List.perm_insertionSort pathLe _).map _).sum_eq.trans (by rw [hkeys])
    have hsum2 : ((List.insertionSort pathLe (f.map Prod.fst)).map
        fun q => (utf8Bytes q).length + contentLen (dirRead f q)).sum =
        ((f.map Prod.fst).map fun q => (utf8Bytes q).length + contentLen (dirRead f q)).sum :=
      ((List.perm_insertionSort pathLe _).map _).sum_eq
    have hcongr : ((f.map Prod.fst).map
        fun q => (utf8Bytes q).length + contentLen (dirRead ((p, c) :: f) q)).sum =
        ((f.map Prod.fst).map fun q => (utf8Bytes q).length + contentLen (dirRead f q)).sum := by
      congr 1
      apply List.map_congr_left
      intro q hq
      have hq_ne : q ≠ p := fun h => hnp (h ▸ hq)
      rw [hread_ne q hq_ne]
    have hlen : s1.length = (utf8Bytes p).length + c.length + s2.length := by
      rw [hl1, hl2, hsum1, hsum2, List.map_cons, List.sum_cons, hreadp]
      show (utf8Bytes p).length + c.length +
          ((f.map Prod.fst).map
            fun q => (utf8Bytes q).length + contentLen (dirRead ((p, c) :: f) q)).sum = _
      rw [hcongr]
    have hpos := utf8Bytes_length_pos p hpne
    intro hcontra
    rw [hs1, hs2] at hcontra
    injection hcontra with hstreams
    rw [hstreams] at hlen
    omega

/-- Witness for **C9**: concrete two-file directories for the
permutation, content-change and presence-change clauses. -/
theorem claim_C9_witness :
    checksum_of_dir [("b", [2]), ("a", [1])] = checksum_of_dir [("a", [1]), ("b", [2])] ∧
    dir_stream (set_content [("a", [1])] "a" [2]) ≠ dir_stream [("a", [1])] ∧
    dir_stream (("b", [2]) :: [("a", [1])]) ≠ dir_stream [("a", [1])] :=
  ⟨claim_C9.1 [("b", [2]), ("a", [1])] [("a", [1]), ("b", [2])] (by decide) (by decide),
   claim_C9.2.2.1 [("a", [1])] "a" [1] [2] (by decide) (by decide) (by decide),
   claim_C9.2.2.2 [("a", [1])] "b" [2] (by decide) (by decide) (by decide)⟩
